import Mathlib

/-!
Verification development for the noise import / injection pipeline of
NuRadioReco/modules/io/noise/noiseImporterUproot.py.

The Python module is shallowly embedded below: per-file instrument data is a
record of decoded branch contents, the amplitude arrays are lists of
per-event, per-channel rational sample lists (rationals abstract the numeric
values; numpy float arithmetic is modelled exactly), stateful attribute
assignment in the importer is explicit state passing, and Python exceptions
are modelled by an error type threaded through Except.
-/

/-- Python runtime errors that the embedded code can raise. -/
inductive PyError where
  | nameError
  | typeError
  | indexError
  | valueError
  | keyError
  | zeroDivisionError
deriving DecidableEq, Repr

/-- Modelled from the spec: the fixed millivolt unit constant
(units.mV of NuRadioReco.utilities.units, whose source is not included
here).  Voltages are stored internally scaled by this constant; the spec
describes it as a millivolt in a volt-scale internal system. -/
def units_mV : ℚ := 1 / 1000

/-- One decoded instrument noise file.  Each field holds the decoded content
of the corresponding branch of the file's trees:
ampOutData is CalibTree AmpOutData.fData (event x channel x sample raw
amplitudes), trgInfo is EventHeader.fTrgInfo decoded with the uint8 jagged
interpretation (one small record per event), fTime is EventHeader.fTime
decoded with the two-int TTimeStamp interpretation (seconds, nanoseconds),
fRun / fStnId / fDTms are the EventMetadata and EventHeader scalar branches,
tempTime / tempData are the TemperatureTree series and powerTime / faveV1
the VoltageTree series. -/
structure NoiseFile where
  ampOutData : List (List (List ℚ))
  trgInfo : List (List ℕ)
  fTime : List (ℤ × ℤ)
  fRun : List ℤ
  fStnId : List ℤ
  fDTms : List ℚ
  tempTime : List (ℤ × ℤ)
  tempData : List ℚ
  powerTime : List (ℤ × ℤ)
  faveV1 : List ℚ
deriving Repr

/-- CalibTree num_entries: the entry count of the tree, i.e. the number of
events; every per-event branch of a well-formed file has this length. -/
def numEntries (f : NoiseFile) : ℕ := f.ampOutData.length

/-- Scaling of one event's waveform block by the millivolt constant, as
numpy broadcasting applies the factor elementwise. -/
def scaleEvent (ev : List (List ℚ)) : List (List ℚ) :=
  ev.map (List.map (fun a => a * units_mV))

/-- The batch boundaries of the batched read path (lines 80-81):
list(np.arange(0, n, 1000)) with n appended. -/
def bunches (n : ℕ) : List ℕ :=
  ((List.range ((n + 999) / 1000)).map (fun k => k * 1000)) ++ [n]

/-- The batched read path of noiseImporter.begin (lines 80-86): slice the
event list at consecutive batch boundaries, scale every batch by units.mV,
and concatenate the batches in order. -/
def readDataBatched (events : List (List (List ℚ))) : List (List (List ℚ)) :=
  let bs := bunches events.length
  ((bs.dropLast.zip bs.tail).map
    (fun p => ((events.drop p.1).take (p.2 - p.1)).map scaleEvent)).flatten

/-- The amplitude read of noiseImporter.begin (lines 77-86): a single full
read of the raw values if the tree has fewer than 1000 entries (line 78,
which applies no units.mV factor), otherwise the batched scaled read. -/
def readData (f : NoiseFile) : List (List (List ℚ)) :=
  if numEntries f < 1000 then f.ampOutData else readDataBatched f.ampOutData

/-- Concatenation of consecutive scaled slices of the event list between
the breakpoints a, b1, b2, ...; the recursive view of the batched read
used to reason about it. -/
def concatSlices (xs : List (List (List ℚ))) : ℕ → List ℕ → List (List (List ℚ))
  | _, [] => []
  | a, b :: bs => ((xs.drop a).take (b - a)).map scaleEvent ++ concatSlices xs b bs

/-- scipy.interpolate.interp1d with bounds_error=False and
fill_value=(data[0], data[-1]), evaluated at one point: clamp below the
first sample to the first value, clamp above the last sample to the last
value, and linearly interpolate between bracketing samples.  The series is
given as (time, value) pairs. -/
def interp1 : List (ℚ × ℚ) → ℚ → ℚ
  | [], _ => 0
  | [p], _ => p.2
  | p :: q :: rest, x =>
    if x ≤ p.1 then p.2
    else if x ≤ q.1 then p.2 + (q.2 - p.2) * (x - p.1) / (q.1 - p.1)
    else interp1 (q :: rest) x

/-- noiseImporter._read_temperature_curve (lines 123-141): read the
TemperatureTree series (times via the two-int interpretation, first element
kept; temperatures unscaled), and either return it plainly or build an
interp1d interpolator and evaluate it at the requested times.  interp1d
raises ValueError on fewer than two samples or mismatched series lengths. -/
def readTemperatureCurve (nf : NoiseFile) (interpolation_times : Option (List ℤ)) :
    Except PyError (List ℚ × List ℚ) :=
  let time : List ℚ := nf.tempTime.map (fun t => (t.1 : ℚ))
  let data : List ℚ := nf.tempData
  match interpolation_times with
  | none => .ok (time, data)
  | some ts =>
    if time.length < 2 ∨ time.length ≠ data.length then .error .valueError
    else .ok (ts.map (fun t => (t : ℚ)),
              ts.map (fun t => interp1 (time.zip data) (t : ℚ)))

/-- A Python value passed as the val argument of _read_power_curve: either a
string naming the voltage sub-channel, or (as happens at the buggy call
site) the numpy array of event times. -/
inductive PyVal where
  | strV (s : String)
  | arrV (xs : List ℤ)
deriving Repr

/-- noiseImporter._read_power_curve (lines 143-164): read the VoltageTree
times, then build the branch name "PowerReading.fave" + val.  If val is an
array (not a string) the string concatenation raises TypeError; only the
sub-channel V1 is modelled as present, any other name raises KeyError in
the uproot lookup.  Voltages are scaled by units.mV.  With
interpolation_times = none the plain series is returned; otherwise an
interp1d interpolator is evaluated at the requested times. -/
def readPowerCurve (nf : NoiseFile) (val : PyVal) (interpolation_times : Option (List ℤ)) :
    Except PyError (List ℚ × List ℚ) :=
  let time : List ℚ := nf.powerTime.map (fun t => (t.1 : ℚ))
  match val with
  | .arrV _ => .error .typeError
  | .strV s =>
    if s = "V1" then
      let data : List ℚ := nf.faveV1.map (fun v => v * units_mV)
      match interpolation_times with
      | none => .ok (time, data)
      | some ts =>
        if time.length < 2 ∨ time.length ≠ data.length then .error .valueError
        else .ok (ts.map (fun t => (t : ℚ)),
                  ts.map (fun t => interp1 (time.zip data) (t : ℚ)))
    else .error .keyError

/-- The per-file data extracted by one iteration of the loop in
noiseImporter.begin (lines 72-108). -/
structure FileChunks where
  data : List (List (List ℚ))
  trigger : List ℕ
  posix : List ℤ
  temp : Option (List ℚ)
  runNumbers : List ℤ
  stn : List ℤ
  dtms : List ℚ
  power : Option (List ℚ)
deriving Repr

/-- One iteration of the file loop of noiseImporter.begin (lines 72-108), in
source order: amplitude data (batched or not), trigger records reduced to
their first element, event times reduced to the seconds component,
optionally the interpolated temperatures, the scalar metadata branches, and
optionally the power curve — whose call (line 107) passes the event-times
array positionally into the val parameter of _read_power_curve. -/
def processFile (f : NoiseFile) (read_temperatures read_power : Bool) :
    Except PyError FileChunks := do
  let dataChunk := readData f
  let triggerChunk := f.trgInfo.map (fun r => r.headD 0)
  let event_times_file := f.fTime.map (fun t => t.1)
  let temp ← if read_temperatures then
      (readTemperatureCurve f (some event_times_file)).map (fun p => some p.2)
    else pure none
  let runChunk := f.fRun
  let stnChunk := f.fStnId
  let dtmsChunk := f.fDTms
  let power ← if read_power then
      (readPowerCurve f (.arrV event_times_file) none).map (fun p => some p.2)
    else pure none
  pure { data := dataChunk, trigger := triggerChunk, posix := event_times_file,
         temp := temp, runNumbers := runChunk, stn := stnChunk,
         dtms := dtmsChunk, power := power }

/-- The importer instance attributes assigned by noiseImporter.begin; a
field is none while the corresponding self.* attribute has not been
assigned (begin can stop early with an exception). -/
structure ImporterState where
  data : Option (List (List (List ℚ)))
  posix_time : Option (List ℤ)
  datetime : Option (List ℤ)
  trigger : Option (List ℕ)
  temperature : Option (List ℚ)
  power : Option (List ℚ)
  station_id : Option (List ℤ)
  dtms : Option (List ℚ)
  run_number : Option (List ℤ)
  nevts : Option ℕ
deriving Repr

/-- The importer state before begin assigns anything. -/
def emptyState : ImporterState :=
  { data := none, posix_time := none, datetime := none, trigger := none,
    temperature := none, power := none, station_id := none, dtms := none,
    run_number := none, nevts := none }

/-- The file loop of noiseImporter.begin over all input files, in list
order, stopping at the first exception. -/
def processFiles : List NoiseFile → Bool → Bool → Except PyError (List FileChunks)
  | [], _, _ => .ok []
  | f :: fs, rt, rp =>
    match processFile f rt rp with
    | .error e => .error e
    | .ok c =>
      match processFiles fs rt rp with
      | .error e => .error e
      | .ok cs => .ok (c :: cs)

/-- noiseImporter.begin (lines 62-121): run the file loop, then the
finalization.  np.concatenate of an empty accumulator list (no input files)
raises ValueError at line 110 before any attribute is assigned.  Otherwise
lines 110-113 assign self.data, self.posix_time, self.datetime (one
np.datetime64(int(t), 's') per posix second: int() of an integer second is
that integer) and self.trigger — and then line 114 evaluates the name
read_temperature, which is not defined anywhere (the parameter is named
read_temperatures), so a NameError is raised on every call and the
remaining attributes are never assigned. -/
def begin (noise_files : List NoiseFile) (read_temperatures read_power : Bool) :
    ImporterState × Option PyError :=
  match processFiles noise_files read_temperatures read_power with
  | .error e => (emptyState, some e)
  | .ok chunks =>
    if noise_files.isEmpty then (emptyState, some .valueError)
    else
      let dataAll := (chunks.map (fun c => c.data)).flatten
      let posixAll := (chunks.map (fun c => c.posix)).flatten
      let datetimeAll := posixAll.map (fun t => t)
      let triggerAll := (chunks.map (fun c => c.trigger)).flatten
      ({ emptyState with
          data := some dataAll, posix_time := some posixAll,
          datetime := some datetimeAll, trigger := some triggerAll },
        some .nameError)

/-- np.shape(self.data)[1] on the (regular) event x channel x sample corpus
array: the per-event channel count, read off the first event. -/
def nchansOf (data : List (List (List ℚ))) : ℕ := (data.headD []).length

/-- np.shape(self.data)[-1] on the (regular) corpus array: the per-channel
sample count, read off the first channel of the first event. -/
def noiseSamplesOf (data : List (List (List ℚ))) : ℕ :=
  ((data.headD []).headD []).length

/-- numpy indexing of a one-dimensional axis by a possibly negative Python
integer index: a nonnegative index must be below the length, a negative
index i selects position length + i provided |i| is at most the length;
anything else raises IndexError (modelled as none). -/
def pyGet {α : Type} (xs : List α) (i : ℤ) : Option α :=
  if 0 ≤ i then xs[i.toNat]?
  else if i.natAbs ≤ xs.length then xs[xs.length - i.natAbs]? else none

/-- numpy elementwise addition of two one-dimensional arrays: defined when
the lengths agree, otherwise a broadcast ValueError. -/
def npAdd (xs ys : List ℚ) : Except PyError (List ℚ) :=
  if xs.length = ys.length then .ok (List.zipWith (· + ·) xs ys) else .error .valueError

/-- A simulated channel as seen through the station collaborator: its id,
its current trace and its sampling rate. -/
structure Channel where
  id : ℤ
  trace : List ℚ
  samplingRate : ℚ
deriving DecidableEq, Repr

/-- A warning emitted through the logging collaborator by noiseImporter.run:
either the channel remap warning of lines 181-183 (original id, remapped
id, available channel count) or the sample-length mismatch warning of
lines 189-190. -/
inductive Warning where
  | channelRemap (orig remapped : ℤ) (nchans : ℕ)
  | lengthMismatch (noiseSamples traceSamples : ℕ)
deriving DecidableEq, Repr

/-- Whether a warning is the sample-length mismatch warning. -/
def isLengthMismatch : Warning → Bool
  | .lengthMismatch _ _ => true
  | _ => false

/-- The observable outcome of noiseImporter.run on one channel: the
channel's trace after the call, the sampling rate it carries, whether
channel.set_trace was invoked, and the warnings logged for this channel. -/
structure ChannelOutcome where
  trace : List ℚ
  samplingRate : ℚ
  traceWasSet : Bool
  warnings : List Warning
deriving DecidableEq, Repr

/-- The per-channel body of noiseImporter.run (lines 169-195), with the
drawn noise event index passed in as noise_event.  In source order: nchans
is read from the corpus shape; an id beyond nchans - 1 is remapped modulo
nchans with a warning (Python % raises ZeroDivisionError when nchans is 0);
then the corpus sample count is compared with the trace length — on
mismatch a warning is logged and the trace is left untouched, otherwise
the waveform at [noise_event][channel_id] is scaled by units.mV, added
elementwise to the existing trace, and set back at the existing sampling
rate. -/
def injectChannel (data : List (List (List ℚ))) (noise_event : ℕ) (ch : Channel) :
    Except PyError ChannelOutcome :=
  let nchans := nchansOf data
  let remap : Except PyError (ℤ × List Warning) :=
    if ch.id > (nchans : ℤ) - 1 then
      if nchans = 0 then .error .zeroDivisionError
      else .ok (ch.id % (nchans : ℤ),
                [Warning.channelRemap ch.id (ch.id % (nchans : ℤ)) nchans])
    else .ok (ch.id, [])
  match remap with
  | .error e => .error e
  | .ok (channel_id, warns) =>
    let noise_samples := noiseSamplesOf data
    if noise_samples ≠ ch.trace.length then
      .ok { trace := ch.trace, samplingRate := ch.samplingRate,
            traceWasSet := false,
            warnings := warns ++ [Warning.lengthMismatch noise_samples ch.trace.length] }
    else
      match data[noise_event]? with
      | none => .error .indexError
      | some ev =>
        match pyGet ev channel_id with
        | none => .error .indexError
        | some wf =>
          match npAdd (wf.map (fun a => a * units_mV)) ch.trace with
          | .error e => .error e
          | .ok newTrace =>
            .ok { trace := newTrace, samplingRate := ch.samplingRate,
                  traceWasSet := true, warnings := warns }

/-- The channel loop of noiseImporter.run: each channel is processed with
its own drawn noise event index; an exception aborts the loop, warnings do
not. -/
def runChannels (data : List (List (List ℚ))) :
    List (ℕ × Channel) → Except PyError (List ChannelOutcome)
  | [] => .ok []
  | (d, ch) :: rest =>
    match injectChannel data d ch with
    | .error e => .error e
    | .ok out =>
      match runChannels data rest with
      | .error e => .error e
      | .ok outs => .ok (out :: outs)

/-- The support of Python random.randint(a, b): the uniform draw over the
integers from a to b, both endpoints included. -/
def randintSupport (a b : ℕ) : Finset ℕ := Finset.Icc a b

/-- The draw of line 173 of noiseImporter.run: random.randint(0, self.nevts)
with self.nevts = len(self.data). -/
def noiseEventDraw (nevts : ℕ) : Finset ℕ := randintSupport 0 nevts

/-- A one-event demonstration noise file: one channel with raw amplitudes
1 and 2, trigger record [3], event time 10 s + 500000000 ns, and a valid
two-sample voltage table. -/
def demoFileA : NoiseFile :=
  { ampOutData := [[[1, 2]]], trgInfo := [[3]], fTime := [(10, 500000000)],
    fRun := [7], fStnId := [51], fDTms := [2], tempTime := [], tempData := [],
    powerTime := [(0, 0), (100, 0)], faveV1 := [12, 14] }

/-- The combined-timestamp derivation in the words of the spec and of
claim C8, for comparison with the code's extraction: the posix timestamp
of an event combines both decoded integer sub-fields, the seconds plus the
nanoseconds scaled down to seconds. -/
def posixCombinedClaim (t : ℤ × ℤ) : ℚ := (t.1 : ℚ) + (t.2 : ℚ) / 1000000000

/-- Claim C1: batched reading of the amplitude field concatenated in order
is claimed to be identical (same values, millivolt scaling included) to a
single unbatched full read.  The code refutes this: the unbatched read of
line 78 stores the raw values with no units.mV factor, while every batch of
line 86 is scaled by units.mV, so on the source holding raw values 1 and 2
the two reads differ by the factor 1000. -/
theorem C1_batched_vs_full_read :
    readData demoFileA = [[[(1 : ℚ), 2]]] ∧
    readDataBatched demoFileA.ampOutData = [[[(1 : ℚ) / 1000, 2 / 1000]]] ∧
    readDataBatched demoFileA.ampOutData ≠ readData demoFileA := by
  refine ⟨rfl, ?_, ?_⟩
  · show readDataBatched [[[(1 : ℚ), 2]]] = _
    simp [readDataBatched, bunches, scaleEvent, units_mV, List.range_succ, List.range_zero]
    norm_num
  · show readDataBatched [[[(1 : ℚ), 2]]] ≠ [[[(1 : ℚ), 2]]]
    simp [readDataBatched, bunches, scaleEvent, units_mV, List.range_succ, List.range_zero]

/-- Claim C2: with read_temperatures (and read_power) false, begin is
claimed to complete without referencing the temperature field.  The code
refutes this: finalization line 114 evaluates the undefined name
read_temperature (the parameter is read_temperatures), so begin raises
NameError on every input — here shown on one small file — and never
completes; the temperature attribute itself is indeed never assigned. -/
theorem C2_begin_raises_name_error :
    (begin [demoFileA] false false).2 = some PyError.nameError ∧
    (begin [demoFileA] false false).1.temperature = none := ⟨rfl, rfl⟩

/-- Claim C3: with read_power true, the corpus powerVoltage is claimed to
hold one interpolated voltage per event.  The code refutes this: begin
(line 107) passes the event-times array positionally into the val parameter
of _read_power_curve, whose branch-name concatenation then raises TypeError
(and interpolation_times stays None, so no per-event interpolation could
happen); the power attribute is never assigned. -/
theorem C3_power_raises_type_error :
    (begin [demoFileA] false true).2 = some PyError.typeError ∧
    (begin [demoFileA] false true).1.power = none := ⟨rfl, rfl⟩

/-- Claim C4: the noise-event index of noiseImporter.run is drawn by
random.randint(0, nevts) whose support includes nevts itself, and a draw
equal to nevts = len(data) makes the waveform access data[noise_event]
index one past the end of the corpus, raising IndexError. -/
theorem C4_inclusive_draw_overruns (data : List (List (List ℚ))) (ch : Channel)
    (hid : ch.id ≤ (nchansOf data : ℤ) - 1)
    (hlen : noiseSamplesOf data = ch.trace.length) :
    data.length ∈ noiseEventDraw data.length ∧
    injectChannel data data.length ch = .error .indexError := by
  constructor
  · simp [noiseEventDraw, randintSupport]
  · have h1 : ¬ (ch.id > (nchansOf data : ℤ) - 1) := not_lt.mpr hid
    have h2 : data[data.length]? = none := by
      simp [List.getElem?_eq_none]
    simp only [injectChannel, if_neg h1]
    rw [if_neg (by rw [hlen]; exact fun h => h rfl)]
    rw [h2]

/-- Witness for C4 on a one-event, one-channel, one-sample corpus. -/
theorem C4_inclusive_draw_overruns_witness :
    (1 : ℕ) ∈ noiseEventDraw 1 ∧
    injectChannel [[[(0 : ℚ)]]] 1 ⟨0, [0], 1⟩ = .error .indexError := by
  have h := C4_inclusive_draw_overruns [[[(0 : ℚ)]]] ⟨0, [0], 1⟩ (by decide) (by decide)
  exact ⟨h.1, h.2⟩

/-- Adding an all-zero list elementwise leaves a list of the same length
unchanged. -/
theorem zipWith_add_zeros (xs ys : List ℚ) (h0 : ∀ y ∈ ys, y = 0)
    (hl : xs.length = ys.length) : List.zipWith (· + ·) xs ys = xs := by
  induction xs generalizing ys with
  | nil => simp
  | cons a as ih =>
    cases ys with
    | nil => simp at hl
    | cons b bs =>
      have hb : b = 0 := h0 b (List.mem_cons_self b bs)
      rw [List.zipWith_cons_cons, hb, add_zero]
      exact congrArg (a :: ·)
        (ih bs (fun y hy => h0 y (List.mem_cons_of_mem b hy)) (by simpa using hl))

/-- Claim C5: when the corpus sample count differs from the channel's trace
length, noiseImporter.run skips the channel: the trace is left unmodified,
set_trace is not called, exactly one length-mismatch warning is logged (and
it is the only warning when the channel id is in range), no exception is
raised, and the remaining channels are still processed. -/
theorem C5_length_mismatch_skips (data : List (List (List ℚ))) (d : ℕ)
    (ch : Channel) (rest : List (ℕ × Channel))
    (hnz : 0 < nchansOf data)
    (hmm : noiseSamplesOf data ≠ ch.trace.length) :
    ∃ out, injectChannel data d ch = .ok out ∧
      out.trace = ch.trace ∧
      out.traceWasSet = false ∧
      (out.warnings.filter (fun w => isLengthMismatch w)).length = 1 ∧
      (ch.id ≤ (nchansOf data : ℤ) - 1 →
        out.warnings = [Warning.lengthMismatch (noiseSamplesOf data) ch.trace.length]) ∧
      runChannels data ((d, ch) :: rest) =
        Except.map (fun outs => out :: outs) (runChannels data rest) := by
  have hz : ¬ nchansOf data = 0 := Nat.pos_iff_ne_zero.mp hnz
  by_cases hg : ch.id > (nchansOf data : ℤ) - 1
  · have hout : injectChannel data d ch = .ok
        { trace := ch.trace, samplingRate := ch.samplingRate, traceWasSet := false,
          warnings := [Warning.channelRemap ch.id (ch.id % (nchansOf data : ℤ)) (nchansOf data),
                       Warning.lengthMismatch (noiseSamplesOf data) ch.trace.length] } := by
      simp only [injectChannel, if_pos hg, if_neg hz, if_pos hmm]
      rfl
    refine ⟨_, hout, rfl, rfl, rfl, fun h => absurd hg (not_lt.mpr h), ?_⟩
    simp only [runChannels, hout]
    cases hr : runChannels data rest <;> simp [Except.map]
  · have hout : injectChannel data d ch = .ok
        { trace := ch.trace, samplingRate := ch.samplingRate, traceWasSet := false,
          warnings := [Warning.lengthMismatch (noiseSamplesOf data) ch.trace.length] } := by
      simp only [injectChannel, if_neg hg, if_pos hmm]
      rfl
    refine ⟨_, hout, rfl, rfl, rfl, fun _ => rfl, ?_⟩
    simp only [runChannels, hout]
    cases hr : runChannels data rest <;> simp [Except.map]

/-- Witness for C5: a 2-sample corpus against a 3-sample trace, followed by
a matching channel which is still processed. -/
theorem C5_length_mismatch_skips_witness :
    ∃ out, injectChannel [[[(0 : ℚ), 0]]] 0 ⟨0, [5, 6, 7], 1⟩ = .ok out ∧
      out.trace = [5, 6, 7] ∧
      out.traceWasSet = false ∧
      (out.warnings.filter (fun w => isLengthMismatch w)).length = 1 ∧
      ((0 : ℤ) ≤ (nchansOf [[[(0 : ℚ), 0]]] : ℤ) - 1 →
        out.warnings = [Warning.lengthMismatch (noiseSamplesOf [[[(0 : ℚ), 0]]]) 3]) ∧
      runChannels [[[(0 : ℚ), 0]]] [(0, ⟨0, [5, 6, 7], 1⟩), (0, ⟨0, [1, 1], 2⟩)] =
        Except.map (fun outs => out :: outs)
          (runChannels [[[(0 : ℚ), 0]]] [(0, ⟨0, [1, 1], 2⟩)]) :=
  C5_length_mismatch_skips [[[(0 : ℚ), 0]]] 0 ⟨0, [5, 6, 7], 1⟩ [(0, ⟨0, [1, 1], 2⟩)]
    (by decide) (by decide)

/-- Claim C6: for a channel with matching trace length, in-range id and
in-range event draw, noiseImporter.run sets the channel's trace to the
elementwise sum of the corpus waveform at [noise_event][channel_id] scaled
by units.mV and the existing trace, at the channel's existing sampling
rate and with no warning; on an all-zero trace the result is exactly the
scaled noise waveform. -/
theorem C6_injects_scaled_sum (data : List (List (List ℚ))) (ne : ℕ)
    (ch : Channel) (ev : List (List ℚ)) (wf : List ℚ)
    (hid0 : 0 ≤ ch.id) (hid1 : ch.id ≤ (nchansOf data : ℤ) - 1)
    (hlen : noiseSamplesOf data = ch.trace.length)
    (hev : data[ne]? = some ev)
    (hwf : ev[ch.id.toNat]? = some wf)
    (hwl : wf.length = ch.trace.length) :
    injectChannel data ne ch = .ok
      { trace := List.zipWith (· + ·) (wf.map (fun a => a * units_mV)) ch.trace,
        samplingRate := ch.samplingRate, traceWasSet := true, warnings := [] } ∧
    ((∀ y ∈ ch.trace, y = 0) →
      List.zipWith (· + ·) (wf.map (fun a => a * units_mV)) ch.trace =
        wf.map (fun a => a * units_mV)) := by
  constructor
  · have hg : ¬ (ch.id > (nchansOf data : ℤ) - 1) := not_lt.mpr hid1
    have hmatch : ¬ (noiseSamplesOf data ≠ ch.trace.length) := fun h => h hlen
    have hpg : pyGet ev ch.id = some wf := by
      rw [pyGet, if_pos hid0]; exact hwf
    have hadd : npAdd (wf.map (fun a => a * units_mV)) ch.trace =
        .ok (List.zipWith (· + ·) (wf.map (fun a => a * units_mV)) ch.trace) := by
      rw [npAdd, if_pos (by rw [List.length_map]; exact hwl)]
    simp only [injectChannel, if_neg hg, if_neg hmatch, hev, hpg, hadd]
  · intro h0
    exact zipWith_add_zeros _ ch.trace h0 (by rw [List.length_map]; exact hwl)

/-- Witness for C6: one event, one channel, samples 2 and 4 injected into
an all-zero two-sample trace, yielding the scaled waveform. -/
theorem C6_injects_scaled_sum_witness :
    injectChannel [[[(2 : ℚ), 4]]] 0 ⟨0, [0, 0], 3⟩ = .ok
      { trace := List.zipWith (· + ·) ([(2 : ℚ), 4].map (fun a => a * units_mV)) [0, 0],
        samplingRate := 3, traceWasSet := true, warnings := [] } ∧
    List.zipWith (· + ·) ([(2 : ℚ), 4].map (fun a => a * units_mV)) [0, 0] =
      [(2 : ℚ), 4].map (fun a => a * units_mV) := by
  have h := C6_injects_scaled_sum [[[(2 : ℚ), 4]]] 0 ⟨0, [0, 0], 3⟩ [[(2 : ℚ), 4]]
    [(2 : ℚ), 4] (by decide) (by decide) rfl rfl rfl rfl
  exact ⟨h.1, h.2 (by intro y hy; simpa using hy)⟩

/-- Claim C7: a channel id at or beyond the corpus channel count is
remapped modulo the channel count with exactly one warning carrying the
original and remapped ids, and the injection then uses the remapped corpus
channel; the trace update is otherwise as in the matching case. -/
theorem C7_modulo_remap (data : List (List (List ℚ))) (ne : ℕ)
    (ch : Channel) (ev : List (List ℚ)) (wf : List ℚ)
    (hid : (nchansOf data : ℤ) ≤ ch.id)
    (hnz : 0 < nchansOf data)
    (hlen : noiseSamplesOf data = ch.trace.length)
    (hev : data[ne]? = some ev)
    (hwf : ev[(ch.id % (nchansOf data : ℤ)).toNat]? = some wf)
    (hwl : wf.length = ch.trace.length) :
    injectChannel data ne ch = .ok
      { trace := List.zipWith (· + ·) (wf.map (fun a => a * units_mV)) ch.trace,
        samplingRate := ch.samplingRate, traceWasSet := true,
        warnings := [Warning.channelRemap ch.id (ch.id % (nchansOf data : ℤ))
                      (nchansOf data)] } := by
  have hz : ¬ nchansOf data = 0 := Nat.pos_iff_ne_zero.mp hnz
  have hg : ch.id > (nchansOf data : ℤ) - 1 := by omega
  have hmatch : ¬ (noiseSamplesOf data ≠ ch.trace.length) := fun h => h hlen
  have hcid0 : 0 ≤ ch.id % (nchansOf data : ℤ) :=
    Int.emod_nonneg ch.id (by exact_mod_cast hz)
  have hpg : pyGet ev (ch.id % (nchansOf data : ℤ)) = some wf := by
    rw [pyGet, if_pos hcid0]; exact hwf
  have hadd : npAdd (wf.map (fun a => a * units_mV)) ch.trace =
      .ok (List.zipWith (· + ·) (wf.map (fun a => a * units_mV)) ch.trace) := by
    rw [npAdd, if_pos (by rw [List.length_map]; exact hwl)]
  simp only [injectChannel, if_pos hg, if_neg hz, hev, hpg, hadd, hmatch]
  simp

/-- Witness for C7: a corpus with 4 noise channels and simulated channel id
6 uses noise channel 6 mod 4 = 2 with exactly one remap warning. -/
theorem C7_modulo_remap_witness :
    injectChannel [[[(10 : ℚ)], [20], [30], [40]]] 0 ⟨6, [0], 1⟩ = .ok
      { trace := List.zipWith (· + ·) ([(30 : ℚ)].map (fun a => a * units_mV)) [0],
        samplingRate := 1, traceWasSet := true,
        warnings := [Warning.channelRemap 6 ((6 : ℤ) % (nchansOf [[[(10 : ℚ)], [20], [30], [40]]] : ℤ))
                      (nchansOf [[[(10 : ℚ)], [20], [30], [40]]])] } :=
  C7_modulo_remap [[[(10 : ℚ)], [20], [30], [40]]] 0 ⟨6, [0], 1⟩
    [[(10 : ℚ)], [20], [30], [40]] [(30 : ℚ)]
    (by decide) (by decide) rfl rfl rfl rfl

/-- Claim C10: a negative channel id of magnitude at most the corpus
channel count passes the remap guard untouched (the guard only fires for
ids beyond nchans - 1): no warning is emitted, no modulo remap happens, and
numpy indexing silently selects the corpus channel nchans + id, counting
from the end of the channel axis. -/
theorem C10_negative_id_from_end (data : List (List (List ℚ))) (ne : ℕ)
    (ch : Channel) (ev : List (List ℚ)) (wf : List ℚ)
    (hneg : ch.id < 0)
    (hmag : ch.id.natAbs ≤ nchansOf data)
    (hlen : noiseSamplesOf data = ch.trace.length)
    (hev : data[ne]? = some ev)
    (hreg : ev.length = nchansOf data)
    (hwf : ev[nchansOf data - ch.id.natAbs]? = some wf)
    (hwl : wf.length = ch.trace.length) :
    injectChannel data ne ch = .ok
      { trace := List.zipWith (· + ·) (wf.map (fun a => a * units_mV)) ch.trace,
        samplingRate := ch.samplingRate, traceWasSet := true, warnings := [] } ∧
    ((nchansOf data - ch.id.natAbs : ℕ) : ℤ) = (nchansOf data : ℤ) + ch.id := by
  have hg : ¬ (ch.id > (nchansOf data : ℤ) - 1) := by omega
  have hmatch : ¬ (noiseSamplesOf data ≠ ch.trace.length) := fun h => h hlen
  have hpg : pyGet ev ch.id = some wf := by
    rw [pyGet, if_neg (not_le.mpr hneg), if_pos (by rw [hreg]; exact hmag), hreg]
    exact hwf
  have hadd : npAdd (wf.map (fun a => a * units_mV)) ch.trace =
      .ok (List.zipWith (· + ·) (wf.map (fun a => a * units_mV)) ch.trace) := by
    rw [npAdd, if_pos (by rw [List.length_map]; exact hwl)]
  constructor
  · simp only [injectChannel, if_neg hg, hev, hpg, hadd, hmatch]
    simp
  · omega

/-- Witness for C10: a corpus with 2 noise channels and simulated channel
id -1 injects corpus channel 1 with no warning. -/
theorem C10_negative_id_from_end_witness :
    injectChannel [[[(5 : ℚ)], [7]]] 0 ⟨-1, [0], 1⟩ = .ok
      { trace := List.zipWith (· + ·) ([(7 : ℚ)].map (fun a => a * units_mV)) [0],
        samplingRate := 1, traceWasSet := true, warnings := [] } ∧
    ((nchansOf [[[(5 : ℚ)], [7]]] - (Int.natAbs (-1)) : ℕ) : ℤ) =
      (nchansOf [[[(5 : ℚ)], [7]]] : ℤ) + (-1) := by
  have h := C10_negative_id_from_end [[[(5 : ℚ)], [7]]] 0 ⟨-1, [0], 1⟩
    [[(5 : ℚ)], [7]] [(7 : ℚ)] (by decide) (by decide) (by rfl) (by rfl) (by rfl)
    (by rfl) (by rfl)
  exact ⟨h.1, h.2⟩

/-- With both optional curves disabled, one file-loop iteration never
raises and returns exactly the per-file chunks. -/
theorem processFile_ff (f : NoiseFile) :
    processFile f false false = .ok
      { data := readData f, trigger := f.trgInfo.map (fun r => r.headD 0),
        posix := f.fTime.map (fun t => t.1), temp := none,
        runNumbers := f.fRun, stn := f.fStnId, dtms := f.fDTms,
        power := none } := rfl

/-- With both optional curves disabled, the file loop returns the chunk
list of all files in order. -/
theorem processFiles_ff (files : List NoiseFile) :
    processFiles files false false = .ok (files.map (fun f =>
      ({ data := readData f, trigger := f.trgInfo.map (fun r => r.headD 0),
         posix := f.fTime.map (fun t => t.1), temp := none,
         runNumbers := f.fRun, stn := f.fStnId, dtms := f.fDTms,
         power := none } : FileChunks))) := by
  induction files with
  | nil => rfl
  | cons f fs ih => simp only [processFiles, processFile_ff, ih, List.map_cons]

/-- Claim C8 counterexample: the claim says posixTime combines the two
integer timestamp sub-fields (seconds and nanoseconds); on an event with
timestamp (10 s, 500000000 ns) the code stores posix time 10 — the
seconds sub-field alone — while the combined timestamp would be 10.5, so
the claim as stated is false. -/
theorem C8_combined_counterexample :
    (begin [demoFileA] false false).1.posix_time = some [10] ∧
    posixCombinedClaim (10, 500000000) = 21 / 2 ∧
    ¬ (((10 : ℤ) : ℚ) = posixCombinedClaim (10, 500000000)) := by
  refine ⟨rfl, by norm_num [posixCombinedClaim], by norm_num [posixCombinedClaim]⟩

/-- Claim C8 amended: for every event of every (nonempty) file list, the
stored posix time keeps only the first of the two decoded integer
timestamp sub-fields — the whole seconds; the nanoseconds sub-field is
discarded — and the derived calendar datetime equals that whole-second
timestamp exactly. -/
theorem C8_seconds_only_datetime (files : List NoiseFile) (h : files ≠ []) :
    (begin files false false).1.posix_time =
      some ((files.map (fun f => f.fTime.map (fun t => t.1))).flatten) ∧
    (begin files false false).1.datetime = (begin files false false).1.posix_time := by
  obtain ⟨f, fs, rfl⟩ := List.exists_cons_of_ne_nil h
  simp [begin, processFiles_ff, List.map_map, Function.comp]
  rfl

/-- Witness for the amended C8 on one concrete file with timestamp
(10 s, 500000000 ns): posix time [10], datetime equal to it. -/
theorem C8_seconds_only_datetime_witness :
    (begin [demoFileA] false false).1.posix_time = some [10] ∧
    (begin [demoFileA] false false).1.datetime =
      (begin [demoFileA] false false).1.posix_time := by
  have h := C8_seconds_only_datetime [demoFileA] (List.cons_ne_nil _ _)
  exact ⟨h.1, h.2⟩

/-- The last-with-default element of a nonempty list is a member. -/
theorem getLastD_mem {α : Type} : ∀ (l : List α) (d : α), l ≠ [] → l.getLastD d ∈ l := by
  intro l
  induction l with
  | nil => intro d h; exact absurd rfl h
  | cons a t ih =>
    intro d _
    rw [List.getLastD_cons]
    cases t with
    | nil => simp
    | cons b t2 =>
      exact List.mem_cons_of_mem a (ih a (List.cons_ne_nil b t2))

/-- Above the last sample time of a sorted series, interp1 clamps to the
last sample value. -/
theorem interp1_gt_lastD : ∀ (l : List (ℚ × ℚ)) (x : ℚ) (d : ℚ × ℚ),
    l.Pairwise (fun p q => p.1 < q.1) → l ≠ [] → (l.getLastD d).1 < x →
    interp1 l x = (l.getLastD d).2 := by
  intro l
  induction l with
  | nil => intro x d _ h _; exact absurd rfl h
  | cons p t ih =>
    intro x d hs _ hx
    cases t with
    | nil =>
      rw [List.getLastD_cons, List.getLastD_nil] at hx ⊢
      simp [interp1]
    | cons q rest =>
      rw [List.getLastD_cons] at hx ⊢
      have hps := List.pairwise_cons.mp hs
      have hmemlast : (q :: rest).getLastD p ∈ q :: rest :=
        getLastD_mem (q :: rest) p (List.cons_ne_nil q rest)
      have hplast : p.1 < ((q :: rest).getLastD p).1 := hps.1 _ hmemlast
      have hpx : ¬ x ≤ p.1 := not_le.mpr (lt_trans hplast hx)
      have hqx : ¬ x ≤ q.1 := by
        rcases List.mem_cons.mp hmemlast with heq | hmem2
        · rw [← heq]; exact not_le.mpr hx
        · have hql : q.1 < ((q :: rest).getLastD p).1 :=
            (List.pairwise_cons.mp hps.2).1 _ hmem2
          exact not_le.mpr (lt_trans hql hx)
      simp only [interp1, if_neg hpx, if_neg hqx]
      exact ih x p hps.2 (List.cons_ne_nil q rest) hx

/-- At an exact sample time of a sorted series, interp1 returns that
sample's own value. -/
theorem interp1_at_sample : ∀ (l : List (ℚ × ℚ)),
    l.Pairwise (fun p q => p.1 < q.1) → ∀ s ∈ l, interp1 l s.1 = s.2 := by
  intro l
  induction l with
  | nil => intro _ s hs; exact absurd hs (List.not_mem_nil s)
  | cons p t ih =>
    intro hs s hmem
    cases t with
    | nil =>
      have h1 : s = p := by simpa using hmem
      subst h1; simp [interp1]
    | cons q rest =>
      have hp := (List.pairwise_cons.mp hs).1
      have ht := (List.pairwise_cons.mp hs).2
      rcases List.mem_cons.mp hmem with rfl | hmem2
      · simp [interp1]
      · have hps : p.1 < s.1 := hp s hmem2
        rcases List.mem_cons.mp hmem2 with rfl | hmem3
        · have hne : s.1 - p.1 ≠ 0 := sub_ne_zero.mpr (ne_of_gt hps)
          simp only [interp1, if_neg (not_le.mpr hps), if_pos (le_refl s.1)]
          rw [mul_div_assoc, div_self hne, mul_one]
          ring
        · have hqs : q.1 < s.1 := (List.pairwise_cons.mp ht).1 s hmem3
          simp only [interp1, if_neg (not_le.mpr hps), if_neg (not_le.mpr hqs)]
          exact ih ht s hmem2

/-- Between two consecutive samples of a sorted series, interp1 is the
linear interpolation through them. -/
theorem interp1_bracket : ∀ (pre : List (ℚ × ℚ)) (l post : List (ℚ × ℚ))
    (a b : ℚ × ℚ) (x : ℚ),
    l.Pairwise (fun p q => p.1 < q.1) → l = pre ++ a :: b :: post →
    a.1 ≤ x → x ≤ b.1 →
    interp1 l x = a.2 + (b.2 - a.2) * (x - a.1) / (b.1 - a.1) := by
  intro pre
  induction pre with
  | nil =>
    intro l post a b x hs hl hax hxb
    subst hl
    simp only [List.nil_append]
    by_cases h1 : x ≤ a.1
    · have hxa : x = a.1 := le_antisymm h1 hax
      simp only [interp1, if_pos h1]
      rw [hxa, sub_self, mul_zero, zero_div, add_zero]
    · simp only [interp1, if_neg h1, if_pos hxb]
  | cons c pre2 ih =>
    intro l post a b x hs hl hax hxb
    subst hl
    rw [List.cons_append] at hs ⊢
    have hmema : a ∈ pre2 ++ a :: b :: post :=
      List.mem_append_right _ (List.mem_cons_self a _)
    have hca : c.1 < a.1 := (List.pairwise_cons.mp hs).1 a hmema
    have ht := (List.pairwise_cons.mp hs).2
    have hcx : ¬ x ≤ c.1 := not_le.mpr (lt_of_lt_of_le hca hax)
    cases pre2 with
    | nil =>
      simp only [List.nil_append] at ht ⊢
      by_cases h2 : x ≤ a.1
      · have hxa : x = a.1 := le_antisymm h2 hax
        have hne : a.1 - c.1 ≠ 0 := sub_ne_zero.mpr (ne_of_gt hca)
        simp only [interp1, if_neg hcx, if_pos h2]
        rw [hxa, sub_self, mul_zero, zero_div, add_zero]
        rw [mul_div_assoc, div_self hne, mul_one]
        ring
      · simp only [interp1, if_neg hcx, if_neg h2, if_pos hxb]
    | cons d pre3 =>
      rw [List.cons_append] at ht ⊢
      have hmema2 : a ∈ pre3 ++ a :: b :: post :=
        List.mem_append_right _ (List.mem_cons_self a _)
      have hda : d.1 < a.1 := (List.pairwise_cons.mp ht).1 a hmema2
      have hdx : ¬ x ≤ d.1 := not_le.mpr (lt_of_lt_of_le hda hax)
      simp only [interp1, if_neg hcx, if_neg hdx]
      exact ih _ post a b x ht (by rw [List.cons_append]) hax hxb

/-- Claim C9: for every (times, values) series of length at least 2 with
strictly increasing times, the interval interpolation used for the
temperature and voltage curves returns the first value below the first
sample time, the last value above the last sample time, each sample's own
value exactly at its sample time, and the piecewise-linear interpolation
through the bracketing samples in between. -/
theorem C9_interp_boundary_and_linear (l : List (ℚ × ℚ))
    (hlen : 2 ≤ l.length)
    (hs : l.Pairwise (fun p q => p.1 < q.1)) :
    (∀ x, x < (l.headD (0, 0)).1 → interp1 l x = (l.headD (0, 0)).2) ∧
    (∀ x, (l.getLastD (0, 0)).1 < x → interp1 l x = (l.getLastD (0, 0)).2) ∧
    (∀ s ∈ l, interp1 l s.1 = s.2) ∧
    (∀ pre post (a b : ℚ × ℚ) (x : ℚ), l = pre ++ a :: b :: post →
      a.1 ≤ x → x ≤ b.1 →
      interp1 l x = a.2 + (b.2 - a.2) * (x - a.1) / (b.1 - a.1)) := by
  refine ⟨?_, ?_, interp1_at_sample l hs,
    fun pre post a b x hl hax hxb => interp1_bracket pre l post a b x hs hl hax hxb⟩
  · intro x hx
    cases l with
    | nil => simp at hlen
    | cons p t =>
      cases t with
      | nil => simp at hlen
      | cons q rest =>
        simp only [List.headD_cons] at hx ⊢
        simp [interp1, le_of_lt hx]
  · intro x hx
    exact interp1_gt_lastD l x (0, 0) hs (by rintro rfl; simp at hlen) hx

/-- Witness for C9 on the two-sample series (0, 1), (2, 5): clamped to 1
below, clamped to 5 above, exact value 5 at sample time 2, and midpoint
value 3 at query time 1. -/
theorem C9_interp_boundary_and_linear_witness :
    interp1 [((0 : ℚ), 1), (2, 5)] (-1) = 1 ∧
    interp1 [((0 : ℚ), 1), (2, 5)] 3 = 5 ∧
    interp1 [((0 : ℚ), 1), (2, 5)] 2 = 5 ∧
    interp1 [((0 : ℚ), 1), (2, 5)] 1 = 3 := by
  have h := C9_interp_boundary_and_linear [((0 : ℚ), 1), (2, 5)] (by decide)
    (by norm_num [List.pairwise_cons])
  refine ⟨?_, ?_, ?_, ?_⟩
  · have h1 := h.1 (-1) (by norm_num)
    simpa using h1
  · have h2 := h.2.1 3 (by norm_num)
    simpa using h2
  · exact h.2.2.1 (2, 5) (by simp)
  · have h4 := h.2.2.2 [] [] (0, 1) (2, 5) 1 rfl (by norm_num) (by norm_num)
    rw [h4]; norm_num

/-- The batched read peeled once: zipping consecutive breakpoints and
flattening equals the recursive slice concatenation. -/
theorem zip_slices_eq_concatSlices (xs : List (List (List ℚ))) :
    ∀ (bs : List ℕ) (a : ℕ),
    (((a :: bs).dropLast.zip (a :: bs).tail).map
      (fun p => ((xs.drop p.1).take (p.2 - p.1)).map scaleEvent)).flatten =
      concatSlices xs a bs := by
  intro bs
  induction bs with
  | nil => intro a; rfl
  | cons b bs2 ih =>
    intro a
    have hdl : (a :: b :: bs2).dropLast = a :: (b :: bs2).dropLast := by
      simp [List.dropLast]
    rw [List.tail_cons, hdl]
    have hzip : (a :: (b :: bs2).dropLast).zip (b :: bs2) =
        (a, b) :: ((b :: bs2).dropLast.zip ((b :: bs2).tail)) := by
      cases bs2 <;> simp [List.zip]
    rw [hzip, List.map_cons, List.flatten_cons, ih b, concatSlices]

/-- Monotone breakpoints ending at the list length slice the whole list:
the slice concatenation from a is everything from a on, scaled. -/
theorem concatSlices_eq (xs : List (List (List ℚ))) :
    ∀ (bs : List ℕ) (a : ℕ), List.Chain' (· ≤ ·) (a :: bs) →
      (a :: bs).getLastD 0 = xs.length →
      concatSlices xs a bs = (xs.drop a).map scaleEvent := by
  intro bs
  induction bs with
  | nil =>
    intro a _ hlast
    rw [List.getLastD_cons, List.getLastD_nil] at hlast
    subst hlast
    simp [concatSlices, List.drop_length]
  | cons b bs2 ih =>
    intro a hch hlast
    have hab : a ≤ b := (List.chain'_cons.mp hch).1
    rw [List.getLastD_cons] at hlast
    have htail : (b :: bs2).getLastD 0 = xs.length := by
      cases bs2 with
      | nil =>
        rw [List.getLastD_cons, List.getLastD_nil]
        rw [List.getLastD_cons, List.getLastD_nil] at hlast
        exact hlast
      | cons c t =>
        rw [List.getLastD_cons]
        rw [List.getLastD_cons] at hlast
        exact hlast
    rw [concatSlices, ih b (List.chain'_cons.mp hch).2 htail]
    have h1 : (xs.drop a).drop (b - a) = xs.drop b := by
      rw [List.drop_drop]
      congr 1
      omega
    rw [← List.map_append, ← h1, List.take_append_drop]

/-- The batched read path applied to any nonempty event list equals the
full event list with every value scaled by units.mV: the batch slices
cover every row exactly once and in source order, so the batched read
differs from the raw unbatched read only by the scale factor. -/
theorem readDataBatched_eq_scaled (events : List (List (List ℚ))) (h : events ≠ []) :
    readDataBatched events = events.map scaleEvent := by
  have hpos : 1 ≤ events.length := by
    cases events with
    | nil => exact absurd rfl h
    | cons e t => simp
  have hk : 1 ≤ (events.length + 999) / 1000 :=
    (Nat.le_div_iff_mul_le (by norm_num)).mpr (by omega)
  obtain ⟨j, hj⟩ : ∃ j, (events.length + 999) / 1000 = j + 1 :=
    ⟨_, (Nat.succ_pred_eq_of_pos hk).symm⟩
  have hmul : ((events.length + 999) / 1000) * 1000 ≤ events.length + 999 :=
    Nat.div_mul_le_self _ 1000
  have hbunches : bunches events.length =
      0 :: (((List.range j).map (fun i => (i + 1) * 1000)) ++ [events.length]) := by
    rw [bunches, hj, List.range_succ_eq_map]
    simp [List.map_map, Function.comp]
  have hchain : List.Chain' (· ≤ ·)
      (0 :: (((List.range j).map (fun i => (i + 1) * 1000)) ++ [events.length])) := by
    apply List.Pairwise.chain'
    apply List.pairwise_cons.mpr
    constructor
    · intro x _; exact Nat.zero_le x
    · apply List.pairwise_append.mpr
      refine ⟨?_, ?_, ?_⟩
      · exact (List.pairwise_lt_range j).map _ (fun a b hab => by omega)
      · simp
      · intro x hx y hy
        simp at hy
        subst hy
        obtain ⟨i, hi, rfl⟩ := List.mem_map.mp hx
        have hij : i < j := List.mem_range.mp hi
        omega
  have hlast : (0 :: (((List.range j).map (fun i => (i + 1) * 1000))
      ++ [events.length])).getLastD 0 = events.length := by
    rw [List.getLastD_cons]
    cases hcase : (List.range j).map (fun i => (i + 1) * 1000) with
    | nil => simp
    | cons z zs =>
      rw [List.cons_append, List.getLastD_cons]
      simp [List.getLastD_concat]
  calc readDataBatched events
      = concatSlices events 0
          (((List.range j).map (fun i => (i + 1) * 1000)) ++ [events.length]) := by
        rw [readDataBatched, hbunches]
        exact zip_slices_eq_concatSlices events _ 0
    _ = (events.drop 0).map scaleEvent := concatSlices_eq events _ 0 hchain hlast
    _ = events.map scaleEvent := by rw [List.drop_zero]
